import Mathlib

/-!
Verification of the usage-accounting and enforcement engine of
`parental-watchdog` (src/main.rs, src/misc.rs, src/backend.rs).

Strings from the Rust side are modelled as `List Char`; `u64` values are
`Nat` with explicit saturating / wrapping operations at `2 ^ 64` where the
source uses them; `i64` is `Int` with explicit saturation at `-(2 ^ 63)`.
External effects (the `ps` invocation, the `notify-send` call, the window
lister) are passed in as explicit `Except`-valued inputs; `Except.error`
returned by a tick corresponds to an `Err` that `main` propagates with `?`.
-/

namespace Watchdog

/-- The value `2 ^ 64`: one more than `u64::MAX`. -/
def U64 : Nat := 2 ^ 64

/-- Rust `u64::saturating_add` (used for interval ends and ledger updates). -/
def satAdd64 (a b : Nat) : Nat := min (a + b) (U64 - 1)

/-- Rust `u64` subtraction with release-mode wrapping semantics
(used for `limit - warn_before` in `add_to_apps`). -/
def wrapSub64 (a b : Nat) : Nat := (a + U64 - b % U64) % U64

/-- The value `i64::MIN`. -/
def i64min : Int := -(2 ^ 63)

/-- Rust `i64::saturating_sub_unsigned`: subtract a `u64` from an `i64`,
saturating at `i64::MIN` (src/main.rs line 236). -/
def saturating_sub_unsigned (a : Int) (b : Nat) : Int := max (a - (b : Int)) i64min

/-- The characters of a string literal (Rust strings as `List Char`). -/
def chars (s : String) : List Char := s.data

/-! ### merge_intervals (src/main.rs lines 120-144) -/

/-- The comparison used by `intervals.sort_unstable_by_key(|&(s, _)| s)`:
order by interval start. -/
def leStart (a b : Nat × Nat) : Prop := a.1 ≤ b.1

instance : DecidableRel leStart := fun a b => Nat.decLe a.1 b.1

instance : IsTotal (Nat × Nat) leStart := ⟨fun a b => Nat.le_total a.1 b.1⟩

instance : IsTrans (Nat × Nat) leStart := ⟨fun _ _ _ h1 h2 => Nat.le_trans h1 h2⟩

/-- The sweep loop of `merge_intervals` (lines 130-141): `cur` is the running
interval; an incoming `(s, e)` with `s > cur.1` (Rust tuple field 1 = end)
closes `cur`, otherwise it extends the end to the max. -/
def mergeGo (cur : Nat × Nat) : List (Nat × Nat) → List (Nat × Nat)
  | [] => [cur]
  | (s, e) :: rest =>
    if cur.2 < s then cur :: mergeGo (s, e) rest
    else mergeGo (cur.1, max cur.2 e) rest

/-- Sweep a whole sorted list (empty list handled as in lines 121-123). -/
def mergeAll : List (Nat × Nat) → List (Nat × Nat)
  | [] => []
  | c :: rest => mergeGo c rest

/-- Function `merge_intervals` (src/main.rs lines 120-144).  The unstable sort by
start key is modelled by `List.insertionSort` on `leStart`; theorem
`mergeAll_perm_sorted` below shows that for well-formed intervals the sweep
result does not depend on how the sort ordered entries with equal starts,
so the choice of sorting algorithm is immaterial. -/
def merge_intervals (intervals : List (Nat × Nat)) : List (Nat × Nat) :=
  mergeAll (List.insertionSort leStart intervals)

/-- The sum `merged.iter().map(|&(s, e)| e - s).sum()` (line 168): total length of a
list of intervals. -/
def totalOf (l : List (Nat × Nat)) : Nat := (l.map fun p => p.2 - p.1).sum

/-- Build the `[start, start + len)` intervals from `(start, len)` pairs. -/
def toIvs (sl : List (Nat × Nat)) : List (Nat × Nat) := sl.map fun p => (p.1, p.1 + p.2)

/-- Sum of the individual lengths of `(start, len)` pairs. -/
def sumLens (sl : List (Nat × Nat)) : Nat := (sl.map fun p => p.2).sum

/-- Total computed by merging the `[start, start + len)` intervals of a list
of `(start, len)` pairs. -/
def mergedTotalSL (sl : List (Nat × Nat)) : Nat := totalOf (merge_intervals (toIvs sl))

/-- The set of integers covered by a list of half-open intervals. -/
def unionIcos (l : List (Nat × Nat)) : Finset ℕ :=
  l.foldr (fun p acc => Finset.Ico p.1 p.2 ∪ acc) ∅

/-- Predicate for "two intervals overlap or touch", on `(start, len)` pairs, read literally
from the spec sentence behind C1: they share a point, or the end of one equals
the start of the other. -/
def overlapsOrTouches (p q : Nat × Nat) : Prop :=
  max p.1 q.1 < min (p.1 + p.2) (q.1 + q.2) ∨ p.1 + p.2 = q.1 ∨ q.1 + q.2 = p.1

instance : DecidableRel overlapsOrTouches := fun p q => by
  unfold overlapsOrTouches; exact inferInstance

lemma mem_unionIcos {x : ℕ} : ∀ {l : List (Nat × Nat)},
    x ∈ unionIcos l ↔ ∃ p ∈ l, x ∈ Finset.Ico p.1 p.2 := by
  intro l
  induction l with
  | nil => simp [unionIcos]
  | cons p t ih =>
    simp only [unionIcos, List.foldr_cons, Finset.mem_union, List.mem_cons]
    constructor
    · rintro (h | h)
      · exact ⟨p, Or.inl rfl, h⟩
      · obtain ⟨q, hq, hx⟩ := ih.1 h
        exact ⟨q, Or.inr hq, hx⟩
    · rintro ⟨q, (rfl | hq), hx⟩
      · exact Or.inl hx
      · exact Or.inr (ih.2 ⟨q, hq, hx⟩)

lemma unionIcos_perm {l1 l2 : List (Nat × Nat)} (h : l1.Perm l2) :
    unionIcos l1 = unionIcos l2 := by
  ext x
  simp only [mem_unionIcos]
  constructor
  · rintro ⟨p, hp, hx⟩; exact ⟨p, h.mem_iff.1 hp, hx⟩
  · rintro ⟨p, hp, hx⟩; exact ⟨p, h.mem_iff.2 hp, hx⟩

example : merge_intervals [(0, 50), (40, 90)] = [(0, 90)] := by decide
example : merge_intervals [(0, 5), (5, 10)] = [(0, 10)] := by decide
example : merge_intervals [(0, 5), (6, 10)] = [(0, 5), (6, 10)] := by decide

/-- The sweep computes exactly the cardinality of the union of the remaining
intervals together with the running interval, provided the list is sorted by
start, every interval is well-formed, and every start is at least `cur.1`. -/
lemma totalOf_mergeGo : ∀ (l : List (Nat × Nat)) (cur : Nat × Nat),
    cur.1 ≤ cur.2 → (∀ p ∈ l, p.1 ≤ p.2) → List.Sorted leStart l →
    (∀ p ∈ l, cur.1 ≤ p.1) →
    totalOf (mergeGo cur l) = (Finset.Ico cur.1 cur.2 ∪ unionIcos l).card := by
  intro l
  induction l with
  | nil =>
    intro cur hc _ _ _
    simp [mergeGo, totalOf, unionIcos, Nat.card_Ico]
  | cons p t ih =>
    rcases p with ⟨s, e⟩
    intro cur hc hwf hs hge
    have hse : s ≤ e := hwf (s, e) (List.mem_cons_self _ _)
    have hcs : cur.1 ≤ s := hge (s, e) (List.mem_cons_self _ _)
    have hst : ∀ q ∈ t, s ≤ q.1 := fun q hq => (List.sorted_cons.1 hs).1 q hq
    have hwt : ∀ q ∈ t, q.1 ≤ q.2 := fun q hq => hwf q (List.mem_cons_of_mem _ hq)
    have hsot : List.Sorted leStart t := (List.sorted_cons.1 hs).2
    by_cases h1 : cur.2 < s
    · have hrec := ih (s, e) hse hwt hsot hst
      have hdisj : Disjoint (Finset.Ico cur.1 cur.2) (Finset.Ico s e ∪ unionIcos t) := by
        rw [Finset.disjoint_left]
        intro x hx hx2
        have hxlt : x < cur.2 := (Finset.mem_Ico.1 hx).2
        rcases Finset.mem_union.1 hx2 with h | h
        · have : s ≤ x := (Finset.mem_Ico.1 h).1
          omega
        · obtain ⟨q, hq, hxq⟩ := mem_unionIcos.1 h
          have : s ≤ q.1 := hst q hq
          have : q.1 ≤ x := (Finset.mem_Ico.1 hxq).1
          omega
      have : totalOf (mergeGo cur ((s, e) :: t)) =
          (cur.2 - cur.1) + totalOf (mergeGo (s, e) t) := by
        simp [mergeGo, h1, totalOf]
      rw [this, hrec]
      have hu : unionIcos ((s, e) :: t) = Finset.Ico s e ∪ unionIcos t := rfl
      rw [hu, Finset.card_union_of_disjoint hdisj, Nat.card_Ico]
    · push_neg at h1
      have hrec := ih (cur.1, max cur.2 e) (le_trans hc (le_max_left _ _)) hwt hsot
        (fun q hq => le_trans hcs (hst q hq))
      have : totalOf (mergeGo cur ((s, e) :: t)) =
          totalOf (mergeGo (cur.1, max cur.2 e) t) := by
        simp [mergeGo, Nat.not_lt.2 h1]
      rw [this, hrec]
      have hico : Finset.Ico cur.1 (max cur.2 e) = Finset.Ico cur.1 cur.2 ∪ Finset.Ico s e := by
        ext x
        simp only [Finset.mem_Ico, Finset.mem_union]
        omega
      have hu : unionIcos ((s, e) :: t) = Finset.Ico s e ∪ unionIcos t := rfl
      rw [hu, hico, Finset.union_assoc]

/-- For well-formed input, the merged total is the cardinality of the union
of the input intervals. -/
lemma totalOf_merge (l : List (Nat × Nat)) (hwf : ∀ p ∈ l, p.1 ≤ p.2) :
    totalOf (merge_intervals l) = (unionIcos l).card := by
  unfold merge_intervals
  have hperm : (List.insertionSort leStart l).Perm l := List.perm_insertionSort leStart l
  have hsorted : List.Sorted leStart (List.insertionSort leStart l) :=
    List.sorted_insertionSort leStart l
  rcases hsort_eq : List.insertionSort leStart l with _ | ⟨c, rest⟩
  · have : l = [] := (List.Perm.nil_eq (hsort_eq ▸ hperm)).symm
    subst this
    simp [mergeAll, totalOf, unionIcos]
  · rw [hsort_eq] at hperm hsorted
    have hmem : ∀ p ∈ c :: rest, p ∈ l := fun p hp => hperm.mem_iff.1 hp
    have hc : c.1 ≤ c.2 := hwf c (hmem c (List.mem_cons_self _ _))
    have hwrest : ∀ p ∈ rest, p.1 ≤ p.2 :=
      fun p hp => hwf p (hmem p (List.mem_cons_of_mem _ hp))
    have hge : ∀ p ∈ rest, c.1 ≤ p.1 := fun p hp => (List.sorted_cons.1 hsorted).1 p hp
    have := totalOf_mergeGo rest c hc hwrest (List.sorted_cons.1 hsorted).2 hge
    rw [mergeAll, this]
    have : Finset.Ico c.1 c.2 ∪ unionIcos rest = unionIcos (c :: rest) := rfl
    rw [this, unionIcos_perm hperm]

/-- Disjointness from a union of intervals is pointwise disjointness. -/
lemma disjoint_unionIcos {A : Finset ℕ} : ∀ {t : List (Nat × Nat)},
    Disjoint A (unionIcos t) ↔ ∀ q ∈ t, Disjoint A (Finset.Ico q.1 q.2) := by
  intro t
  induction t with
  | nil => simp [unionIcos]
  | cons q r ih =>
    have hu : unionIcos (q :: r) = Finset.Ico q.1 q.2 ∪ unionIcos r := rfl
    rw [hu, Finset.disjoint_union_right]
    constructor
    · rintro ⟨h1, h2⟩ p hp
      rcases List.mem_cons.1 hp with rfl | hp
      · exact h1
      · exact ih.1 h2 p hp
    · intro h
      exact ⟨h q (List.mem_cons_self _ _), ih.2 fun p hp => h p (List.mem_cons_of_mem _ hp)⟩

/-- The union of a list of intervals has cardinality at most the sum of the
interval lengths, with equality exactly when the intervals are pairwise
disjoint. -/
lemma card_unionIcos : ∀ l : List (Nat × Nat),
    (unionIcos l).card ≤ totalOf l ∧
      ((unionIcos l).card = totalOf l ↔
        l.Pairwise fun p q => Disjoint (Finset.Ico p.1 p.2) (Finset.Ico q.1 q.2)) := by
  intro l
  induction l with
  | nil => simp [unionIcos, totalOf]
  | cons p t ih =>
    obtain ⟨ihle, ihiff⟩ := ih
    have hu : unionIcos (p :: t) = Finset.Ico p.1 p.2 ∪ unionIcos t := rfl
    have hkey := Finset.card_union_add_card_inter (Finset.Ico p.1 p.2) (unionIcos t)
    have hle2 : (Finset.Ico p.1 p.2 ∪ unionIcos t).card ≤
        (Finset.Ico p.1 p.2).card + (unionIcos t).card := Finset.card_union_le _ _
    have htot : totalOf (p :: t) = (p.2 - p.1) + totalOf t := by
      simp [totalOf]
    have hcard : (Finset.Ico p.1 p.2).card = p.2 - p.1 := Nat.card_Ico _ _
    constructor
    · rw [hu, htot, ← hcard]
      omega
    · rw [hu, htot, List.pairwise_cons, ← ihiff, ← hcard]
      constructor
      · intro heq
        have hinter : (Finset.Ico p.1 p.2 ∩ unionIcos t).card = 0 := by omega
        have hdisj : Disjoint (Finset.Ico p.1 p.2) (unionIcos t) := by
          rw [Finset.disjoint_iff_inter_eq_empty]
          exact Finset.card_eq_zero.1 hinter
        refine ⟨disjoint_unionIcos.1 hdisj, ?_⟩
        omega
      · rintro ⟨hdisjpt, heqt⟩
        have hdisj : Disjoint (Finset.Ico p.1 p.2) (unionIcos t) :=
          disjoint_unionIcos.2 hdisjpt
        have : (Finset.Ico p.1 p.2 ∩ unionIcos t).card = 0 := by
          rw [Finset.disjoint_iff_inter_eq_empty] at hdisj
          simp [hdisj]
        omega

/-- C1, claim as stated, is false: the two touching intervals `[0, 5)` and
`[5, 10)` (given as `(start, len)` pairs `(0, 5)` and `(5, 5)`) touch, yet
the merged total still equals the sum of the individual lengths, so
"equality iff no two intervals overlap or touch" fails. -/
theorem C1_counterexample :
    ¬ (mergedTotalSL [(0, 5), (5, 5)] = sumLens [(0, 5), (5, 5)] ↔
        List.Pairwise (fun p q => ¬ overlapsOrTouches p q) [(0, 5), (5, 5)]) := by
  decide

/-- C1 (amended): for every finite list of half-open `[start, start + len)`
intervals, the total computed by `merge_intervals` is at most the sum of the
individual lengths, with equality iff no two of the input intervals overlap,
i.e. iff the intervals are pairwise disjoint as sets.  (Touching intervals
are merged, but merging them preserves the total, so touching does not break
equality.) -/
theorem C1_merge_total_le_sum (sl : List (Nat × Nat)) :
    mergedTotalSL sl ≤ sumLens sl ∧
      (mergedTotalSL sl = sumLens sl ↔
        sl.Pairwise fun p q =>
          Disjoint (Finset.Ico p.1 (p.1 + p.2)) (Finset.Ico q.1 (q.1 + q.2))) := by
  have hwf : ∀ p ∈ toIvs sl, p.1 ≤ p.2 := by
    intro p hp
    obtain ⟨q, _, rfl⟩ := List.mem_map.1 hp
    exact Nat.le_add_right _ _
  have hmt : mergedTotalSL sl = (unionIcos (toIvs sl)).card :=
    totalOf_merge (toIvs sl) hwf
  have hsum : totalOf (toIvs sl) = sumLens sl := by
    simp only [totalOf, toIvs, sumLens, List.map_map]
    congr 1
    apply List.map_congr_left
    intro p _
    simp
  obtain ⟨hle, hiff⟩ := card_unionIcos (toIvs sl)
  rw [hsum] at hle hiff
  have hpw : (toIvs sl).Pairwise
        (fun p q => Disjoint (Finset.Ico p.1 p.2) (Finset.Ico q.1 q.2)) ↔
      sl.Pairwise fun p q =>
        Disjoint (Finset.Ico p.1 (p.1 + p.2)) (Finset.Ico q.1 (q.1 + q.2)) := by
    unfold toIvs
    rw [List.pairwise_map]
  rw [hmt]
  exact ⟨hle, hiff.trans hpw⟩

/-! ### Order invariance and idempotence of the merge (C9) -/

/-- Largest end among a list of intervals (0 when empty). -/
def maxEnd (l : List (Nat × Nat)) : Nat := l.foldr (fun p m => max p.2 m) 0

lemma maxEnd_perm {l1 l2 : List (Nat × Nat)} (h : l1.Perm l2) :
    maxEnd l1 = maxEnd l2 := by
  induction h with
  | nil => rfl
  | cons x _ ih => simp only [maxEnd, List.foldr_cons] at *; rw [ih]
  | swap x y l =>
    simp only [maxEnd, List.foldr_cons]
    rw [← Nat.max_assoc, Nat.max_comm y.2 x.2, Nat.max_assoc]
  | trans _ _ ih1 ih2 => exact ih1.trans ih2

/-- Sweeping a block of intervals that all start at `s` (each ending at or
after `s`) collapses the whole block into one `max`-end step. -/
lemma mergeGo_block (s : Nat) : ∀ (A : List (Nat × Nat)), A ≠ [] →
    (∀ p ∈ A, p.1 = s ∧ s ≤ p.2) → ∀ (m : List (Nat × Nat)) (cur : Nat × Nat),
    mergeGo cur (A ++ m) =
      if cur.2 < s then cur :: mergeGo (s, maxEnd A) m
      else mergeGo (cur.1, max cur.2 (maxEnd A)) m := by
  intro A
  induction A with
  | nil => intro h; exact absurd rfl h
  | cons p A' ih =>
    intro _ hA m cur
    obtain ⟨p1, p2⟩ := p
    obtain ⟨hp1, hp2⟩ := hA (p1, p2) (List.mem_cons_self _ _)
    subst hp1
    rcases A' with _ | ⟨q, A''⟩
    · simp only [List.nil_append, List.cons_append, maxEnd, List.foldr_cons, List.foldr_nil,
        Nat.max_zero]
      rfl
    · have hA' : ∀ r ∈ q :: A'', r.1 = p1 ∧ p1 ≤ r.2 :=
        fun r hr => hA r (List.mem_cons_of_mem _ hr)
      have hrec := ih (List.cons_ne_nil q A'') hA' m
      have hmax : maxEnd ((p1, p2) :: q :: A'') = max p2 (maxEnd (q :: A'')) := rfl
      by_cases hcur : cur.2 < p1
      · have : mergeGo cur (((p1, p2) :: q :: A'') ++ m) =
            cur :: mergeGo (p1, p2) ((q :: A'') ++ m) := by
          simp [mergeGo, hcur]
        rw [this, hrec (p1, p2)]
        have h2 : ¬ ((p1, p2).2 < p1) := Nat.not_lt.2 hp2
        rw [if_neg h2, if_pos hcur, hmax]
      · have : mergeGo cur (((p1, p2) :: q :: A'') ++ m) =
            mergeGo (cur.1, max cur.2 p2) ((q :: A'') ++ m) := by
          simp [mergeGo, hcur]
        rw [this, hrec (cur.1, max cur.2 p2)]
        have h2 : ¬ ((cur.1, max cur.2 p2).2 < p1) := by
          simp only [Nat.not_lt] at hcur ⊢
          exact le_trans hcur (le_max_left _ _)
        rw [if_neg h2, if_neg hcur, hmax, Nat.max_assoc]

/-- Top-level form of the block lemma: the whole leading equal-start block of
a sweep becomes the initial running interval. -/
lemma mergeAll_block (s : Nat) (A r : List (Nat × Nat)) (hne : A ≠ [])
    (hA : ∀ p ∈ A, p.1 = s ∧ s ≤ p.2) :
    mergeAll (A ++ r) = mergeGo (s, maxEnd A) r := by
  rcases A with _ | ⟨a, A'⟩
  · exact absurd rfl hne
  · obtain ⟨a1, a2⟩ := a
    obtain ⟨ha1, ha2⟩ := hA (a1, a2) (List.mem_cons_self _ _)
    subst ha1
    rcases A' with _ | ⟨q, A''⟩
    · show mergeGo (a1, a2) r = mergeGo (a1, maxEnd [(a1, a2)]) r
      simp [maxEnd]
    · have hA' : ∀ p ∈ q :: A'', p.1 = a1 ∧ a1 ≤ p.2 :=
        fun p hp => hA p (List.mem_cons_of_mem _ hp)
      show mergeGo (a1, a2) ((q :: A'') ++ r) = _
      rw [mergeGo_block a1 (q :: A'') (List.cons_ne_nil q A'') hA' r (a1, a2)]
      have h2 : ¬ ((a1, a2).2 < a1) := Nat.not_lt.2 ha2
      rw [if_neg h2]
      rfl

/-- In a sorted list all of whose starts are at least `s`, the elements with
start exactly `s` form the `takeWhile` prefix, and they are exactly the
`filter`; the rest is the `dropWhile` suffix. -/
lemma sorted_takeWhile_filter (s : Nat) : ∀ l : List (Nat × Nat),
    List.Sorted leStart l → (∀ p ∈ l, s ≤ p.1) →
    l.takeWhile (fun p => p.1 == s) = l.filter (fun p => p.1 == s) ∧
      l.dropWhile (fun p => p.1 == s) = l.filter (fun p => ! (p.1 == s)) := by
  intro l
  induction l with
  | nil => intro _ _; exact ⟨rfl, rfl⟩
  | cons p t ih =>
    intro hs hge
    have hst : List.Sorted leStart t := (List.sorted_cons.1 hs).2
    by_cases hp : p.1 = s
    · obtain ⟨ih1, ih2⟩ := ih hst fun q hq => hge q (List.mem_cons_of_mem _ hq)
      constructor
      · simp [List.takeWhile_cons, List.filter_cons, hp, ih1]
      · simp [List.dropWhile_cons, List.filter_cons, hp, ih2]
    · have hlt : s < p.1 := lt_of_le_of_ne (hge p (List.mem_cons_self _ _)) (Ne.symm hp)
      have hall : ∀ q ∈ p :: t, ¬ (q.1 == s) = true := by
        intro q hq
        rcases List.mem_cons.1 hq with rfl | hq
        · simp [hp]
        · have : p.1 ≤ q.1 := (List.sorted_cons.1 hs).1 q hq
          have : q.1 ≠ s := by omega
          simp [this]
      have hb : (p.1 == s) = false := by simp [hp]
      constructor
      · have h0 : List.takeWhile (fun q => q.1 == s) (p :: t) = [] := by
          simp [List.takeWhile_cons, hb]
        rw [h0, Eq.comm, List.filter_eq_nil_iff]
        exact hall
      · have h0 : List.dropWhile (fun q => q.1 == s) (p :: t) = p :: t := by
          simp [List.dropWhile_cons, hb]
        rw [h0, Eq.comm, List.filter_eq_self]
        intro q hq
        have hf : (q.1 == s) = false := by
          cases hqe : (q.1 == s)
          · rfl
          · exact absurd hqe (hall q hq)
        simp [hf]

/-- The sweep result does not depend on which sorted-by-start order of the
same multiset of well-formed intervals it is given (so the tie order of the
unstable sort in the source is irrelevant). -/
lemma mergeGo_perm_sorted : ∀ (n : Nat) (l1 l2 : List (Nat × Nat)) (cur : Nat × Nat),
    l1.length ≤ n → l1.Perm l2 → List.Sorted leStart l1 → List.Sorted leStart l2 →
    (∀ p ∈ l1, p.1 ≤ p.2) → mergeGo cur l1 = mergeGo cur l2 := by
  intro n
  induction n with
  | zero =>
    intro l1 l2 cur hlen hperm _ _ _
    have h1 : l1 = [] := List.length_eq_zero.1 (Nat.le_zero.1 hlen)
    subst h1
    have h2 : l2 = [] := hperm.nil_eq.symm
    subst h2
    rfl
  | succ n ih =>
    intro l1 l2 cur hlen hperm hs1 hs2 hwf
    rcases hl1 : l1 with _ | ⟨p, t1⟩
    · subst hl1
      have h2 : l2 = [] := hperm.nil_eq.symm
      subst h2; rfl
    · subst hl1
      have hge1 : ∀ q ∈ p :: t1, p.1 ≤ q.1 := by
        intro q hq
        rcases List.mem_cons.1 hq with rfl | hq
        · exact le_refl _
        · exact (List.sorted_cons.1 hs1).1 q hq
      have hge2 : ∀ q ∈ l2, p.1 ≤ q.1 := fun q hq => hge1 q (hperm.mem_iff.2 hq)
      obtain ⟨htw1, hdw1⟩ := sorted_takeWhile_filter p.1 (p :: t1) hs1 hge1
      obtain ⟨htw2, hdw2⟩ := sorted_takeWhile_filter p.1 l2 hs2 hge2
      have hsplit1 : p :: t1 = (p :: t1).filter (fun q => q.1 == p.1) ++
          (p :: t1).filter (fun q => ! (q.1 == p.1)) := by
        rw [← htw1, ← hdw1, List.takeWhile_append_dropWhile]
      have hsplit2 : l2 = l2.filter (fun q => q.1 == p.1) ++
          l2.filter (fun q => ! (q.1 == p.1)) := by
        rw [← htw2, ← hdw2, List.takeWhile_append_dropWhile]
      have hAperm : ((p :: t1).filter (fun q => q.1 == p.1)).Perm
          (l2.filter (fun q => q.1 == p.1)) := hperm.filter _
      have hrperm : ((p :: t1).filter (fun q => ! (q.1 == p.1))).Perm
          (l2.filter (fun q => ! (q.1 == p.1))) := hperm.filter _
      have hA1ne : (p :: t1).filter (fun q => q.1 == p.1) ≠ [] := by
        have : p ∈ (p :: t1).filter (fun q => q.1 == p.1) := by
          rw [List.mem_filter]
          exact ⟨List.mem_cons_self _ _, by simp⟩
        exact List.ne_nil_of_mem this
      have hA2ne : l2.filter (fun q => q.1 == p.1) ≠ [] := by
        intro h
        rw [h] at hAperm
        exact hA1ne hAperm.eq_nil
      have hA1good : ∀ q ∈ (p :: t1).filter (fun q => q.1 == p.1), q.1 = p.1 ∧ p.1 ≤ q.2 := by
        intro q hq
        rw [List.mem_filter] at hq
        have h1 : q.1 = p.1 := by simpa using hq.2
        exact ⟨h1, h1 ▸ hwf q hq.1⟩
      have hA2good : ∀ q ∈ l2.filter (fun q => q.1 == p.1), q.1 = p.1 ∧ p.1 ≤ q.2 := by
        intro q hq
        rw [List.mem_filter] at hq
        have h1 : q.1 = p.1 := by simpa using hq.2
        exact ⟨h1, h1 ▸ hwf q (hperm.mem_iff.2 hq.1)⟩
      have hmaxeq : maxEnd ((p :: t1).filter (fun q => q.1 == p.1)) =
          maxEnd (l2.filter (fun q => q.1 == p.1)) := maxEnd_perm hAperm
      have hlenr : ((p :: t1).filter (fun q => ! (q.1 == p.1))).length ≤ n := by
        have h1 : (p :: t1).length = ((p :: t1).filter (fun q => q.1 == p.1)).length +
            ((p :: t1).filter (fun q => ! (q.1 == p.1))).length := by
          conv_lhs => rw [hsplit1]
          rw [List.length_append]
        have h2 : 1 ≤ ((p :: t1).filter (fun q => q.1 == p.1)).length := by
          rcases hh : (p :: t1).filter (fun q => q.1 == p.1) with _ | _
          · exact absurd hh hA1ne
          · simp
        simp only [List.length_cons] at hlen h1
        omega
      have hsr1 : List.Sorted leStart ((p :: t1).filter (fun q => ! (q.1 == p.1))) :=
        List.Pairwise.sublist (List.filter_sublist _) hs1
      have hsr2 : List.Sorted leStart (l2.filter (fun q => ! (q.1 == p.1))) :=
        List.Pairwise.sublist (List.filter_sublist _) hs2
      have hwfr1 : ∀ q ∈ (p :: t1).filter (fun q => ! (q.1 == p.1)), q.1 ≤ q.2 := by
        intro q hq
        rw [List.mem_filter] at hq
        exact hwf q hq.1
      rw [hsplit1, hsplit2,
        mergeGo_block p.1 _ hA1ne hA1good _ cur,
        mergeGo_block p.1 _ hA2ne hA2good _ cur, hmaxeq]
      by_cases hcur : cur.2 < p.1
      · rw [if_pos hcur, if_pos hcur]
        have := ih _ _ (p.1, maxEnd (l2.filter (fun q => q.1 == p.1)))
          hlenr hrperm hsr1 hsr2 hwfr1
        rw [this]
      · rw [if_neg hcur, if_neg hcur]
        exact ih _ _ _ hlenr hrperm hsr1 hsr2 hwfr1

/-- Top-level version: any two sorted-by-start arrangements of the same
well-formed intervals sweep to the same merged list. -/
lemma mergeAll_perm_sorted (l1 l2 : List (Nat × Nat)) (hperm : l1.Perm l2)
    (hs1 : List.Sorted leStart l1) (hs2 : List.Sorted leStart l2)
    (hwf : ∀ p ∈ l1, p.1 ≤ p.2) : mergeAll l1 = mergeAll l2 := by
  rcases hl1 : l1 with _ | ⟨p, t1⟩
  · subst hl1
    have h2 : l2 = [] := hperm.nil_eq.symm
    subst h2; rfl
  · subst hl1
    have hge1 : ∀ q ∈ p :: t1, p.1 ≤ q.1 := by
      intro q hq
      rcases List.mem_cons.1 hq with rfl | hq
      · exact le_refl _
      · exact (List.sorted_cons.1 hs1).1 q hq
    have hge2 : ∀ q ∈ l2, p.1 ≤ q.1 := fun q hq => hge1 q (hperm.mem_iff.2 hq)
    obtain ⟨htw1, hdw1⟩ := sorted_takeWhile_filter p.1 (p :: t1) hs1 hge1
    obtain ⟨htw2, hdw2⟩ := sorted_takeWhile_filter p.1 l2 hs2 hge2
    have hsplit1 : p :: t1 = (p :: t1).filter (fun q => q.1 == p.1) ++
        (p :: t1).filter (fun q => ! (q.1 == p.1)) := by
      rw [← htw1, ← hdw1, List.takeWhile_append_dropWhile]
    have hsplit2 : l2 = l2.filter (fun q => q.1 == p.1) ++
        l2.filter (fun q => ! (q.1 == p.1)) := by
      rw [← htw2, ← hdw2, List.takeWhile_append_dropWhile]
    have hAperm : ((p :: t1).filter (fun q => q.1 == p.1)).Perm
        (l2.filter (fun q => q.1 == p.1)) := hperm.filter _
    have hrperm : ((p :: t1).filter (fun q => ! (q.1 == p.1))).Perm
        (l2.filter (fun q => ! (q.1 == p.1))) := hperm.filter _
    have hA1ne : (p :: t1).filter (fun q => q.1 == p.1) ≠ [] := by
      have : p ∈ (p :: t1).filter (fun q => q.1 == p.1) := by
        rw [List.mem_filter]
        exact ⟨List.mem_cons_self _ _, by simp⟩
      exact List.ne_nil_of_mem this
    have hA2ne : l2.filter (fun q => q.1 == p.1) ≠ [] := by
      intro h
      rw [h] at hAperm
      exact hA1ne hAperm.eq_nil
    have hA1good : ∀ q ∈ (p :: t1).filter (fun q => q.1 == p.1), q.1 = p.1 ∧ p.1 ≤ q.2 := by
      intro q hq
      rw [List.mem_filter] at hq
      have h1 : q.1 = p.1 := by simpa using hq.2
      exact ⟨h1, h1 ▸ hwf q hq.1⟩
    have hA2good : ∀ q ∈ l2.filter (fun q => q.1 == p.1), q.1 = p.1 ∧ p.1 ≤ q.2 := by
      intro q hq
      rw [List.mem_filter] at hq
      have h1 : q.1 = p.1 := by simpa using hq.2
      exact ⟨h1, h1 ▸ hwf q (hperm.mem_iff.2 hq.1)⟩
    have hsr1 : List.Sorted leStart ((p :: t1).filter (fun q => ! (q.1 == p.1))) :=
      List.Pairwise.sublist (List.filter_sublist _) hs1
    have hsr2 : List.Sorted leStart (l2.filter (fun q => ! (q.1 == p.1))) :=
      List.Pairwise.sublist (List.filter_sublist _) hs2
    have hwfr1 : ∀ q ∈ (p :: t1).filter (fun q => ! (q.1 == p.1)), q.1 ≤ q.2 := by
      intro q hq
      rw [List.mem_filter] at hq
      exact hwf q hq.1
    conv_lhs => rw [hsplit1]
    conv_rhs => rw [hsplit2]
    rw [mergeAll_block p.1 _ _ hA1ne hA1good, mergeAll_block p.1 _ _ hA2ne hA2good,
      maxEnd_perm hAperm]
    exact mergeGo_perm_sorted ((p :: t1).filter (fun q => ! (q.1 == p.1))).length
      _ _ _ (le_refl _) hrperm hsr1 hsr2 hwfr1

/-- Function `merge_intervals` is invariant under permutation of a well-formed input. -/
lemma merge_intervals_perm (l1 l2 : List (Nat × Nat)) (h : l1.Perm l2)
    (hwf : ∀ p ∈ l1, p.1 ≤ p.2) : merge_intervals l1 = merge_intervals l2 := by
  unfold merge_intervals
  apply mergeAll_perm_sorted
  · exact (List.perm_insertionSort leStart l1).trans
      (h.trans (List.perm_insertionSort leStart l2).symm)
  · exact List.sorted_insertionSort leStart l1
  · exact List.sorted_insertionSort leStart l2
  · intro p hp
    exact hwf p ((List.perm_insertionSort leStart l1).mem_iff.1 hp)

/-- Every interval produced by the sweep is well-formed. -/
lemma mergeGo_wf : ∀ (l : List (Nat × Nat)) (cur : Nat × Nat), cur.1 ≤ cur.2 →
    (∀ p ∈ l, p.1 ≤ p.2) → ∀ q ∈ mergeGo cur l, q.1 ≤ q.2 := by
  intro l
  induction l with
  | nil =>
    intro cur hc _ q hq
    rw [mergeGo, List.mem_singleton] at hq
    subst hq; exact hc
  | cons p t ih =>
    rcases p with ⟨s, e⟩
    intro cur hc hwf q hq
    have hse : s ≤ e := hwf (s, e) (List.mem_cons_self _ _)
    have hwt : ∀ r ∈ t, r.1 ≤ r.2 := fun r hr => hwf r (List.mem_cons_of_mem _ hr)
    rw [mergeGo] at hq
    by_cases h1 : cur.2 < s
    · rw [if_pos h1, List.mem_cons] at hq
      rcases hq with rfl | hq
      · exact hc
      · exact ih (s, e) hse hwt q hq
    · rw [if_neg h1] at hq
      exact ih (cur.1, max cur.2 e) (le_trans hc (le_max_left _ _)) hwt q hq

/-- Every interval produced by the sweep starts at or after `cur.1`. -/
lemma mergeGo_fst_ge : ∀ (l : List (Nat × Nat)) (cur : Nat × Nat),
    List.Sorted leStart l → (∀ p ∈ l, cur.1 ≤ p.1) →
    ∀ q ∈ mergeGo cur l, cur.1 ≤ q.1 := by
  intro l
  induction l with
  | nil =>
    intro cur _ _ q hq
    rw [mergeGo, List.mem_singleton] at hq
    subst hq; exact le_refl _
  | cons p t ih =>
    rcases p with ⟨s, e⟩
    intro cur hs hge q hq
    have hcs : cur.1 ≤ s := hge (s, e) (List.mem_cons_self _ _)
    have hst : ∀ r ∈ t, s ≤ r.1 := fun r hr => (List.sorted_cons.1 hs).1 r hr
    have hsot : List.Sorted leStart t := (List.sorted_cons.1 hs).2
    rw [mergeGo] at hq
    by_cases h1 : cur.2 < s
    · rw [if_pos h1, List.mem_cons] at hq
      rcases hq with rfl | hq
      · exact le_refl _
      · exact le_trans hcs (ih (s, e) hsot hst q hq)
    · rw [if_neg h1] at hq
      exact ih (cur.1, max cur.2 e) hsot
        (fun r hr => le_trans hcs (hst r hr)) q hq

/-- The sweep output is strictly separated: each produced interval ends
strictly before the next one starts. -/
lemma mergeGo_pairwise : ∀ (l : List (Nat × Nat)) (cur : Nat × Nat),
    List.Sorted leStart l → (∀ p ∈ l, p.1 ≤ p.2) → (∀ p ∈ l, cur.1 ≤ p.1) →
    (mergeGo cur l).Pairwise (fun a b => a.2 < b.1) := by
  intro l
  induction l with
  | nil =>
    intro cur _ _ _
    rw [mergeGo]
    exact List.pairwise_singleton _ _
  | cons p t ih =>
    rcases p with ⟨s, e⟩
    intro cur hs hwf hge
    have hse : s ≤ e := hwf (s, e) (List.mem_cons_self _ _)
    have hcs : cur.1 ≤ s := hge (s, e) (List.mem_cons_self _ _)
    have hst : ∀ r ∈ t, s ≤ r.1 := fun r hr => (List.sorted_cons.1 hs).1 r hr
    have hsot : List.Sorted leStart t := (List.sorted_cons.1 hs).2
    have hwt : ∀ r ∈ t, r.1 ≤ r.2 := fun r hr => hwf r (List.mem_cons_of_mem _ hr)
    rw [mergeGo]
    by_cases h1 : cur.2 < s
    · rw [if_pos h1]
      rw [List.pairwise_cons]
      constructor
      · intro q hq
        have : s ≤ q.1 := mergeGo_fst_ge t (s, e) hsot hst q hq
        omega
      · exact ih (s, e) hsot hwt hst
    · rw [if_neg h1]
      exact ih (cur.1, max cur.2 e) hsot hwt fun r hr => le_trans hcs (hst r hr)

/-- Sweeping a list that is already strictly separated copies it. -/
lemma mergeGo_of_pairwise : ∀ (l : List (Nat × Nat)) (cur : Nat × Nat),
    (cur :: l).Pairwise (fun a b => a.2 < b.1) → mergeGo cur l = cur :: l := by
  intro l
  induction l with
  | nil => intro cur _; rfl
  | cons p t ih =>
    rcases p with ⟨s, e⟩
    intro cur hp
    have h1 : cur.2 < s := (List.pairwise_cons.1 hp).1 (s, e) (List.mem_cons_self _ _)
    rw [mergeGo, if_pos h1, ih (s, e) (List.pairwise_cons.1 hp).2]

/-- Function `merge_intervals` is idempotent on well-formed input. -/
lemma merge_intervals_idem (l : List (Nat × Nat)) (hwf : ∀ p ∈ l, p.1 ≤ p.2) :
    merge_intervals (merge_intervals l) = merge_intervals l := by
  have hperm : (List.insertionSort leStart l).Perm l := List.perm_insertionSort leStart l
  have hsorted : List.Sorted leStart (List.insertionSort leStart l) :=
    List.sorted_insertionSort leStart l
  have hwfs : ∀ p ∈ List.insertionSort leStart l, p.1 ≤ p.2 :=
    fun p hp => hwf p (hperm.mem_iff.1 hp)
  have hout : (merge_intervals l).Pairwise (fun a b => a.2 < b.1) := by
    unfold merge_intervals
    rcases hsort_eq : List.insertionSort leStart l with _ | ⟨c, rest⟩
    · exact List.Pairwise.nil
    · rw [hsort_eq] at hsorted hwfs
      exact mergeGo_pairwise rest c (List.sorted_cons.1 hsorted).2
        (fun p hp => hwfs p (List.mem_cons_of_mem _ hp))
        (fun p hp => (List.sorted_cons.1 hsorted).1 p hp)
  have houtwf : ∀ p ∈ merge_intervals l, p.1 ≤ p.2 := by
    unfold merge_intervals
    rcases hsort_eq : List.insertionSort leStart l with _ | ⟨c, rest⟩
    · intro p hp; exact absurd hp (List.not_mem_nil p)
    · rw [hsort_eq] at hsorted hwfs
      exact mergeGo_wf rest c (hwfs c (List.mem_cons_self _ _))
        fun p hp => hwfs p (List.mem_cons_of_mem _ hp)
  have houtsorted : List.Sorted leStart (merge_intervals l) := by
    apply List.Pairwise.imp_of_mem ?_ hout
    intro a b ha _ hab
    exact le_trans (houtwf a ha) (le_of_lt hab)
  show mergeAll (List.insertionSort leStart (merge_intervals l)) = merge_intervals l
  rw [List.Sorted.insertionSort_eq houtsorted]
  rcases hout_eq : merge_intervals l with _ | ⟨c, rest⟩
  · rfl
  · rw [hout_eq] at hout
    show mergeGo c rest = c :: rest
    exact mergeGo_of_pairwise rest c hout

/-- C9: `merge_intervals` is invariant to the order of its input — for every
permutation of the input interval list the merged result and the total are
the same — and idempotent: merging the output of a merge yields the same
list of intervals. -/
theorem C9_merge_perm_invariant_and_idempotent (sl sl' : List (Nat × Nat))
    (h : sl'.Perm sl) :
    merge_intervals (toIvs sl') = merge_intervals (toIvs sl) ∧
      totalOf (merge_intervals (toIvs sl')) = totalOf (merge_intervals (toIvs sl)) ∧
      merge_intervals (merge_intervals (toIvs sl)) = merge_intervals (toIvs sl) := by
  have hwf : ∀ p ∈ toIvs sl', p.1 ≤ p.2 := by
    intro p hp
    obtain ⟨q, _, rfl⟩ := List.mem_map.1 hp
    exact Nat.le_add_right _ _
  have hwf2 : ∀ p ∈ toIvs sl, p.1 ≤ p.2 := by
    intro p hp
    obtain ⟨q, _, rfl⟩ := List.mem_map.1 hp
    exact Nat.le_add_right _ _
  have h1 : merge_intervals (toIvs sl') = merge_intervals (toIvs sl) :=
    merge_intervals_perm _ _ (h.map _) hwf
  exact ⟨h1, by rw [h1], merge_intervals_idem _ hwf2⟩

/-- Witness for C9 at a concrete permutation pair. -/
theorem C9_witness :
    merge_intervals (toIvs [(5, 2), (0, 3)]) = merge_intervals (toIvs [(0, 3), (5, 2)]) ∧
      totalOf (merge_intervals (toIvs [(5, 2), (0, 3)])) =
        totalOf (merge_intervals (toIvs [(0, 3), (5, 2)])) ∧
      merge_intervals (merge_intervals (toIvs [(0, 3), (5, 2)])) =
        merge_intervals (toIvs [(0, 3), (5, 2)]) :=
  C9_merge_perm_invariant_and_idempotent [(0, 3), (5, 2)] [(5, 2), (0, 3)] (by decide)

/-! ### The ledger (`apps` HashMap) and its update (src/main.rs lines 240-252) -/

/-- Ledger keys are Rust strings. -/
abbrev Key := List Char

/-- Date-bucket strings (`YYYY-MM-DD`). -/
abbrev Date := List Char

/-- The in-memory ledger: `HashMap<String, u64>` modelled as an association
list with distinct keys (iteration order is the list order). -/
abbrev Apps := List (Key × Nat)

/-- Rust `HashMap::get`. -/
def lookupA : Apps → Key → Option Nat
  | [], _ => none
  | (k', v') :: t, k => if k = k' then some v' else lookupA t k

/-- Overwrite the value stored for a present key (`get_mut` + assignment). -/
def updateA : Apps → Key → Nat → Apps
  | [], _, _ => []
  | (k', v') :: t, k, v => if k = k' then (k, v) :: t else (k', v') :: updateA t k v

/-- The ledger update of `add_to_apps` (src/main.rs lines 240-252): insert on
absence; otherwise `delta = observed.saturating_sub(stored)` and
`stored = stored.saturating_add(delta)`.  Returns the recorded value and the
updated map. -/
def get_or_create (apps : Apps) (key : Key) (seconds : Nat) : Nat × Apps :=
  match lookupA apps key with
  | none => (seconds, apps ++ [(key, seconds)])
  | some old => (satAdd64 old (seconds - old), updateA apps key (satAdd64 old (seconds - old)))

/-- A sequence of `get_or_create` updates on one key. -/
def runUpdates (apps : Apps) (key : Key) (obs : List Nat) : Apps :=
  obs.foldl (fun m o => (get_or_create m key o).2) apps

lemma lookupA_updateA : ∀ (m : Apps) (k : Key) (v w : Nat),
    lookupA m k = some v → lookupA (updateA m k w) k = some w := by
  intro m
  induction m with
  | nil => intro k v w h; exact absurd h (by simp [lookupA])
  | cons p t ih =>
    rcases p with ⟨k', v'⟩
    intro k v w h
    by_cases hk : k = k'
    · simp [updateA, lookupA, hk]
    · rw [lookupA, if_neg hk] at h
      simp only [updateA, if_neg hk, lookupA]
      exact ih k v w h

lemma get_or_create_present (m : Apps) (k : Key) (v o : Nat)
    (h : lookupA m k = some v) :
    get_or_create m k o = (satAdd64 v (o - v), updateA m k (satAdd64 v (o - v))) := by
  rw [get_or_create, h]

lemma satAdd64_ge_left {a b : Nat} (ha : a ≤ U64 - 1) : a ≤ satAdd64 a b := by
  unfold satAdd64
  exact le_min (Nat.le_add_right _ _) ha

lemma satAdd64_le {a b : Nat} : satAdd64 a b ≤ U64 - 1 := min_le_right _ _

/-- C3: the ledger update is monotonic — for every key and every sequence of
`get_or_create` updates (insert on absence; otherwise
`stored += max(0, observed - stored)`), the stored value for that key never
decreases, even when a later observed value is smaller than the stored
value. -/
theorem C3_ledger_monotonic (obs : List Nat) : ∀ (apps : Apps) (key : Key) (v : Nat),
    lookupA apps key = some v → v ≤ U64 - 1 →
    ∃ w, lookupA (runUpdates apps key obs) key = some w ∧ v ≤ w ∧ w ≤ U64 - 1 := by
  induction obs with
  | nil =>
    intro apps key v h hb
    exact ⟨v, h, le_refl _, hb⟩
  | cons o obs ih =>
    intro apps key v h hb
    have hstep : runUpdates apps key (o :: obs) =
        runUpdates (updateA apps key (satAdd64 v (o - v))) key obs := by
      rw [runUpdates, List.foldl_cons, get_or_create_present apps key v o h]
      rfl
    have hlook : lookupA (updateA apps key (satAdd64 v (o - v))) key =
        some (satAdd64 v (o - v)) := lookupA_updateA apps key v _ h
    obtain ⟨w, hw, hle, hwb⟩ := ih _ key (satAdd64 v (o - v)) hlook satAdd64_le
    exact ⟨w, hstep ▸ hw, le_trans (satAdd64_ge_left hb) hle, hwb⟩

/-- Witness for C3: stored value 5, observations 10 then 3 (smaller); the
stored value ends at least 5. -/
theorem C3_witness :
    ∃ w, lookupA (runUpdates [(chars "k", 5)] (chars "k") [10, 3]) (chars "k") = some w ∧
      5 ≤ w ∧ w ≤ U64 - 1 :=
  C3_ledger_monotonic [10, 3] [(chars "k", 5)] (chars "k") 5 (by decide) (by decide)

/-! ### Session start epoch (src/main.rs lines 234-236, claim C6) -/

/-- C6, claim as stated, is false: `saturating_sub_unsigned` saturates at
`i64::MIN`, not at zero, so with `now_epoch = 100` and
`elapsed_seconds = 200` the derived start epoch is `-100`, which is
negative. -/
theorem C6_counterexample :
    saturating_sub_unsigned 100 200 = -100 ∧ saturating_sub_unsigned 100 200 < 0 := by
  constructor <;> decide

/-- C6 (amended): `session_start_epoch = now_epoch - elapsed_seconds`
computed with `i64::saturating_sub_unsigned`, which saturates at `i64::MIN`
rather than zero; whenever `elapsed_seconds ≤ now_epoch` the result is the
exact difference and is non-negative, but when `elapsed_seconds` exceeds
`now_epoch` the result can be negative. -/
theorem C6_start_epoch (now : Int) (elapsed : Nat) (he : (elapsed : Int) ≤ now) :
    saturating_sub_unsigned now elapsed = now - elapsed ∧
      0 ≤ saturating_sub_unsigned now elapsed := by
  have h0 : (0 : Int) ≤ now - elapsed := by
    have : (0 : Int) ≤ (elapsed : Int) := Int.ofNat_nonneg _
    omega
  have hmin : i64min ≤ now - elapsed := by
    have : i64min ≤ 0 := by decide
    omega
  unfold saturating_sub_unsigned
  rw [max_eq_left hmin]
  exact ⟨rfl, h0⟩

/-- Witness for C6 at `now = 100`, `elapsed = 30`. -/
theorem C6_witness :
    saturating_sub_unsigned 100 30 = 100 - (30 : Nat) ∧
      0 ≤ saturating_sub_unsigned 100 30 :=
  C6_start_epoch 100 30 (by decide)

/-! ### Enforcement decision (src/main.rs lines 258-269) -/

/-- The warning / killing logic of `add_to_apps` (lines 258-269):
`if total > (limit - warn_before) && total < limit && *warned != today`
send the warning (propagating its error with `?`, before `*warned = today`
executes) — `else if total >= limit` request termination.  Returns
`(warning_sent, kill_requested, warned')`. -/
def enforce (limit warn_before total : Nat) (today warned : Date)
    (notifyR : Except Unit Unit) : Except Unit (Bool × Bool × Date) :=
  if wrapSub64 limit warn_before < total ∧ total < limit ∧ warned ≠ today then
    match notifyR with
    | .error e => .error e
    | .ok _ => .ok (true, false, today)
  else if limit ≤ total then
    .ok (false, true, warned)
  else
    .ok (false, false, warned)

/-- Drive `enforce` over a sequence of ticks `(total, today)` with the
notification collaborator succeeding; returns
`(warnings_sent, kills_requested, final_warned)`. -/
def enforceRun (limit warn_before : Nat) : List (Nat × Date) → Date → Nat × Nat × Date
  | [], warned => (0, 0, warned)
  | (total, today) :: ts, warned =>
    match enforce limit warn_before total today warned (Except.ok ()) with
    | .error _ => enforceRun limit warn_before ts warned
    | .ok (w, k, warned') =>
      ((if w then 1 else 0) + (enforceRun limit warn_before ts warned').1,
       (if k then 1 else 0) + (enforceRun limit warn_before ts warned').2.1,
       (enforceRun limit warn_before ts warned').2.2)

lemma u64pow : U64 = 18446744073709551616 := by norm_num [U64]

lemma wrapSub64_eq {a b : Nat} (hb : b ≤ a) (ha : a < U64) : wrapSub64 a b = a - b := by
  rw [wrapSub64, u64pow]
  rw [u64pow] at ha
  have hblt : b % 18446744073709551616 = b := Nat.mod_eq_of_lt (lt_of_le_of_lt hb ha)
  rw [hblt]
  omega

lemma enforce_warn (limit wb total : Nat) (today warned : Date)
    (h1 : wrapSub64 limit wb < total) (h2 : total < limit) (h3 : warned ≠ today) :
    enforce limit wb total today warned (Except.ok ()) = .ok (true, false, today) := by
  unfold enforce
  rw [if_pos ⟨h1, h2, h3⟩]

lemma enforce_idle (limit wb total : Nat) (today warned : Date)
    (h2 : total < limit) (h3 : warned = today) :
    enforce limit wb total today warned (Except.ok ()) = .ok (false, false, warned) := by
  unfold enforce
  rw [if_neg (by simp [h3]), if_neg (Nat.not_le.2 h2)]

lemma enforce_kill (limit wb total : Nat) (today warned : Date)
    (notifyR : Except Unit Unit) (h : limit ≤ total) :
    enforce limit wb total today warned notifyR = .ok (false, true, warned) := by
  unfold enforce
  rw [if_neg (by rintro ⟨_, h2, _⟩; omega), if_pos h]

/-- In-window ticks on a date the warning was already sent for do nothing. -/
lemma enforceRun_warned (limit wb : Nat) (d : Date) : ∀ ts : List Nat,
    (∀ t ∈ ts, t < limit) →
    enforceRun limit wb (ts.map fun t => (t, d)) d = (0, 0, d) := by
  intro ts
  induction ts with
  | nil => intro _; rfl
  | cons t ts ih =>
    intro hts
    simp only [List.map_cons, enforceRun,
      enforce_idle limit wb t d d (hts t (List.mem_cons_self _ _)) rfl,
      ih fun q hq => hts q (List.mem_cons_of_mem _ hq)]
    simp

/-- A nonempty in-window run on a fresh date warns exactly once and records
the date. -/
lemma enforceRun_fresh (limit wb : Nat) (d w0 : Date) (t : Nat) (ts : List Nat)
    (hwb : wb ≤ limit) (hlim : limit < U64) (hw0 : w0 ≠ d)
    (hts : ∀ q ∈ t :: ts, limit - wb < q ∧ q < limit) :
    enforceRun limit wb ((t :: ts).map fun q => (q, d)) w0 = (1, 0, d) := by
  obtain ⟨ht1, ht2⟩ := hts t (List.mem_cons_self _ _)
  have hwarn : enforce limit wb t d w0 (Except.ok ()) = .ok (true, false, d) := by
    apply enforce_warn
    · rw [wrapSub64_eq hwb hlim]; exact ht1
    · exact ht2
    · exact hw0
  simp only [List.map_cons, enforceRun, hwarn,
    enforceRun_warned limit wb d ts fun q hq => (hts q (List.mem_cons_of_mem _ hq)).2]
  simp

/-- C4: for every date bucket and every sequence of ticks whose computed
total lies strictly inside the warning window
(`limit - warn_before < total < limit`), the warning is emitted at most
once for that date bucket — after the first firing sets `warned` to today,
no later tick with the same date fires it again — and a date change
re-permits exactly one new warning. -/
theorem C4_warning_once_per_date (limit wb : Nat) (d d' w0 : Date) (ts ts' : List Nat)
    (hwb : wb ≤ limit) (hlim : limit < U64)
    (hts : ∀ t ∈ ts, limit - wb < t ∧ t < limit)
    (hts' : ∀ t ∈ ts', limit - wb < t ∧ t < limit)
    (hdd : d' ≠ d) (hne : ts ≠ []) (hne' : ts' ≠ []) :
    (enforceRun limit wb (ts.map fun t => (t, d)) w0).1 ≤ 1 ∧
      (w0 ≠ d → (enforceRun limit wb (ts.map fun t => (t, d)) w0).1 = 1) ∧
      (w0 = d → (enforceRun limit wb (ts.map fun t => (t, d)) w0).1 = 0) ∧
      (enforceRun limit wb (ts.map fun t => (t, d)) w0).2.2 = d ∧
      (enforceRun limit wb (ts'.map fun t => (t, d'))
        (enforceRun limit wb (ts.map fun t => (t, d)) w0).2.2).1 = 1 := by
  rcases ts with _ | ⟨t, ts⟩
  · exact absurd rfl hne
  rcases ts' with _ | ⟨t', ts'⟩
  · exact absurd rfl hne'
  by_cases hw0 : w0 = d
  · subst hw0
    have h1 := enforceRun_warned limit wb w0 (t :: ts) fun q hq => (hts q hq).2
    rw [h1]
    have h2 := enforceRun_fresh limit wb d' w0 t' ts' hwb hlim (Ne.symm hdd) hts'
    rw [h2]
    exact ⟨by omega, fun h => absurd rfl h, fun _ => rfl, rfl, rfl⟩
  · have h1 := enforceRun_fresh limit wb d w0 t ts hwb hlim hw0 hts
    rw [h1]
    have h2 := enforceRun_fresh limit wb d' d t' ts' hwb hlim (Ne.symm hdd) hts'
    rw [h2]
    exact ⟨by omega, fun _ => rfl, fun h => absurd h hw0, rfl, rfl⟩

/-- Witness for C4: limit 100, warn window 20, ticks 85 and 90 on date "a"
warn exactly once, and one tick 85 on date "b" warns exactly once more. -/
theorem C4_witness :
    (enforceRun 100 20 ([85, 90].map fun t => (t, chars "a")) (chars "")).1 ≤ 1 ∧
      (chars "" ≠ chars "a" →
        (enforceRun 100 20 ([85, 90].map fun t => (t, chars "a")) (chars "")).1 = 1) ∧
      (chars "" = chars "a" →
        (enforceRun 100 20 ([85, 90].map fun t => (t, chars "a")) (chars "")).1 = 0) ∧
      (enforceRun 100 20 ([85, 90].map fun t => (t, chars "a")) (chars "")).2.2 = chars "a" ∧
      (enforceRun 100 20 ([85].map fun t => (t, chars "b"))
        (enforceRun 100 20 ([85, 90].map fun t => (t, chars "a")) (chars "")).2.2).1 = 1 :=
  C4_warning_once_per_date 100 20 (chars "a") (chars "b") (chars "") [85, 90] [85]
    (by decide) (by decide) (by decide) (by decide) (by decide) (by decide) (by decide)

/-- C5: the termination request is not idempotently suppressed — on every
tick whose computed total satisfies `total >= limit` the kill branch fires
(the warning branch cannot, since it requires `total < limit`), regardless
of the warned state, the notification collaborator, and of whether a kill
already fired on an earlier tick: over a whole run every such tick requests
termination again. -/
theorem C5_kill_refires (limit wb : Nat) (d w0 : Date) (ts : List Nat)
    (hts : ∀ t ∈ ts, limit ≤ t) :
    (enforceRun limit wb (ts.map fun t => (t, d)) w0).2.1 = ts.length ∧
      ∀ (total : Nat) (today warned : Date) (notifyR : Except Unit Unit),
        limit ≤ total →
        enforce limit wb total today warned notifyR = .ok (false, true, warned) := by
  constructor
  · induction ts with
    | nil => rfl
    | cons t ts ih =>
      simp only [List.map_cons, enforceRun,
        enforce_kill limit wb t d w0 (Except.ok ()) (hts t (List.mem_cons_self _ _)),
        ih fun q hq => hts q (List.mem_cons_of_mem _ hq)]
      simp [Nat.add_comm]
  · intro total today warned notifyR h
    exact enforce_kill limit wb total today warned notifyR h

/-- Witness for C5: two ticks at and above the limit both request
termination. -/
theorem C5_witness :
    (enforceRun 100 20 ([100, 150].map fun t => (t, chars "a")) (chars "")).2.1 =
        ([100, 150] : List Nat).length ∧
      ∀ (total : Nat) (today warned : Date) (notifyR : Except Unit Unit),
        100 ≤ total →
        enforce 100 20 total today warned notifyR = .ok (false, true, warned) :=
  C5_kill_refires 100 20 (chars "a") (chars "") [100, 150] (by decide)

/-! ### Decimal rendering and parsing (Rust `format!` / `str::parse::<u64>`) -/

/-- The ASCII digit character for `d < 10`. -/
def digitChar (d : Nat) : Char := Char.ofNat (48 + d)

/-- Decimal rendering of a natural number, fuel-based so it reduces in the
kernel; fuel `n + 1` always suffices. -/
def natToCharsCore : Nat → Nat → List Char
  | 0, _ => []
  | fuel + 1, n =>
    if n < 10 then [digitChar n]
    else natToCharsCore fuel (n / 10) ++ [digitChar (n % 10)]

/-- Rust `format!("{n}")` for a `u64`. -/
def natToChars (n : Nat) : List Char := natToCharsCore (n + 1) n

/-- Rust `format!("{i}")` for an `i64`. -/
def intToChars (i : Int) : List Char :=
  if i < 0 then '-' :: natToChars i.natAbs else natToChars i.toNat

/-- ASCII digit test. -/
def isDigitC (c : Char) : Bool := decide (48 ≤ c.toNat) && decide (c.toNat ≤ 57)

/-- Value of an ASCII digit. -/
def digitVal (c : Char) : Nat := c.toNat - 48

/-- Accumulating decimal parser: fails on the first non-digit. -/
def parseDigitsAux : List Char → Nat → Option Nat
  | [], acc => some acc
  | c :: t, acc => if isDigitC c then parseDigitsAux t (acc * 10 + digitVal c) else none

/-- Rust `str::parse::<u64>`: an optional leading `+`, then one or more ASCII
digits, and the value must fit in a `u64` (overflow is a parse error). -/
def parseU64 (l : List Char) : Option Nat :=
  match (match l with
    | c :: t => if c = '+' then t else c :: t
    | [] => []) with
  | [] => none
  | c :: t =>
    match parseDigitsAux (c :: t) 0 with
    | some v => if v < U64 then some v else none
    | none => none

example : parseU64 (chars "42") = some 42 := by decide
example : parseU64 (chars "+42") = some 42 := by decide
example : parseU64 (chars "") = none := by decide
example : parseU64 (chars "4x2") = none := by decide
example : parseU64 (chars "18446744073709551616") = none := by decide
example : natToChars 105 = chars "105" := by decide

lemma natToCharsCore_mem : ∀ (fuel n : Nat), ∀ c ∈ natToCharsCore fuel n,
    ∃ d, d < 10 ∧ c = digitChar d := by
  intro fuel
  induction fuel with
  | zero => intro n c hc; exact absurd hc (List.not_mem_nil c)
  | succ fuel ih =>
    intro n c hc
    rw [natToCharsCore] at hc
    by_cases h : n < 10
    · rw [if_pos h, List.mem_singleton] at hc
      exact ⟨n, h, hc⟩
    · rw [if_neg h, List.mem_append] at hc
      rcases hc with hc | hc
      · exact ih (n / 10) c hc
      · rw [List.mem_singleton] at hc
        exact ⟨n % 10, Nat.mod_lt _ (by omega), hc⟩

lemma natToChars_ne_nil (n : Nat) : natToChars n ≠ [] := by
  rw [natToChars, natToCharsCore]
  by_cases h : n < 10
  · rw [if_pos h]; exact List.cons_ne_nil _ _
  · rw [if_neg h]
    exact List.append_ne_nil_of_right_ne_nil _ (List.cons_ne_nil _ _)

lemma digitChar_spec (d : Nat) (h : d < 10) :
    isDigitC (digitChar d) = true ∧ digitVal (digitChar d) = d ∧
      digitChar d ≠ '\r' ∧ digitChar d ≠ '\n' ∧ digitChar d ≠ ' ' ∧ digitChar d ≠ '+' := by
  interval_cases d <;> exact ⟨by decide, by decide, by decide, by decide, by decide, by decide⟩

lemma parseDigitsAux_all : ∀ (l : List Char), (∀ c ∈ l, isDigitC c = true) →
    ∀ acc, parseDigitsAux l acc =
      some (l.foldl (fun a c => a * 10 + digitVal c) acc) := by
  intro l
  induction l with
  | nil => intro _ acc; rfl
  | cons c t ih =>
    intro h acc
    rw [parseDigitsAux, if_pos (h c (List.mem_cons_self _ _)), List.foldl_cons]
    exact ih (fun q hq => h q (List.mem_cons_of_mem _ hq)) _

lemma foldl_natToCharsCore : ∀ (fuel : Nat), ∀ (n acc : Nat), n < 10 ^ fuel →
    (natToCharsCore fuel n).foldl (fun a c => a * 10 + digitVal c) acc =
      acc * 10 ^ (natToCharsCore fuel n).length + n := by
  intro fuel
  induction fuel with
  | zero =>
    intro n acc h
    have : n = 0 := by simpa using h
    subst this
    simp [natToCharsCore]
  | succ fuel ih =>
    intro n acc h
    rw [natToCharsCore]
    by_cases h10 : n < 10
    · rw [if_pos h10]
      simp only [List.foldl_cons, List.foldl_nil, List.length_singleton]
      rw [(digitChar_spec n h10).2.1]
      ring
    · rw [if_neg h10]
      have hdiv : n / 10 < 10 ^ fuel := by
        rw [Nat.div_lt_iff_lt_mul (by norm_num)]
        calc n < 10 ^ (fuel + 1) := h
        _ = 10 ^ fuel * 10 := by ring
      rw [List.foldl_append]
      simp only [List.foldl_cons, List.foldl_nil]
      rw [ih (n / 10) acc hdiv, (digitChar_spec (n % 10) (Nat.mod_lt _ (by omega))).2.1,
        List.length_append, List.length_singleton]
      have hmod := Nat.div_add_mod n 10
      ring_nf
      omega

lemma nat_lt_pow_ten (n : Nat) : n < 10 ^ (n + 1) := by
  calc n < 2 ^ n := Nat.lt_two_pow n
  _ ≤ 10 ^ n := Nat.pow_le_pow_left (by norm_num) n
  _ ≤ 10 ^ (n + 1) := Nat.pow_le_pow_right (by norm_num) (Nat.le_succ n)

lemma parseDigitsAux_natToChars (v : Nat) :
    parseDigitsAux (natToChars v) 0 = some v := by
  have hdig : ∀ c ∈ natToChars v, isDigitC c = true := by
    intro c hc
    obtain ⟨d, hd, rfl⟩ := natToCharsCore_mem (v + 1) v c hc
    exact (digitChar_spec d hd).1
  rw [parseDigitsAux_all (natToChars v) hdig 0, natToChars,
    foldl_natToCharsCore (v + 1) v 0 (nat_lt_pow_ten v)]
  simp

lemma parseU64_natToChars (v : Nat) (hv : v < U64) :
    parseU64 (natToChars v) = some v := by
  rcases hl : natToChars v with _ | ⟨c, t⟩
  · exact absurd hl (natToChars_ne_nil v)
  · have hc : c ≠ '+' := by
      have hm : c ∈ natToChars v := by rw [hl]; exact List.mem_cons_self _ _
      obtain ⟨d, hd, rfl⟩ := natToCharsCore_mem (v + 1) v c hm
      exact (digitChar_spec d hd).2.2.2.2.2
    have hparse : parseDigitsAux (c :: t) 0 = some v := by
      rw [← hl]; exact parseDigitsAux_natToChars v
    rw [parseU64, if_neg hc]
    show (match parseDigitsAux (c :: t) 0 with
      | some w => if w < U64 then some w else none
      | none => none) = some v
    rw [hparse]
    show (if v < U64 then some v else none) = some v
    rw [if_pos hv]

/-! ### The ledger file: load_apps (lines 64-84) and save_apps (lines 88-95) -/

/-- Split a character list at every occurrence of `sep` (Rust `str::split`):
`""` gives one empty piece, a trailing separator gives a trailing empty
piece. -/
def splitOnCAux (sep : Char) : List Char → List Char → List (List Char)
  | [], acc => [acc.reverse]
  | c :: t, acc =>
    if c = sep then acc.reverse :: splitOnCAux sep t []
    else splitOnCAux sep t (c :: acc)

/-- Rust `str::split(sep)`. -/
def splitOnC (sep : Char) (l : List Char) : List (List Char) := splitOnCAux sep l []

/-- Strip one trailing carriage return (the CRLF handling of
`BufRead::lines`). -/
def stripCr (l : List Char) : List Char :=
  match l.getLast? with
  | some c => if c = '\r' then l.dropLast else l
  | none => l

/-- Rust `BufRead::lines` on the whole file: split on `'\n'`; every piece except
the final one was newline-terminated, so it gets a trailing `'\r'` stripped;
the final piece is dropped when empty (terminated file) and kept verbatim
otherwise. -/
def linesOf (c : List Char) : List (List Char) :=
  ((splitOnC '\n' c).dropLast.map stripCr) ++
    (match (splitOnC '\n' c).getLast? with
     | some [] => []
     | some l => [l]
     | none => [])

example : linesOf (chars "a\nb\n") = [chars "a", chars "b"] := by decide
example : linesOf (chars "a\nb") = [chars "a", chars "b"] := by decide
example : linesOf (chars "") = [] := by decide
example : linesOf (chars "a\r\n\nb") = [chars "a", chars "", chars "b"] := by decide

/-- The split `l.splitn(2, ' ')` as used in `load_apps`: find the first space; `none`
when there is no space at all (in which case the `(Some, Some)` pattern of
the source fails and the line is skipped). -/
def breakSp : List Char → Option (List Char × List Char)
  | [] => none
  | c :: t => if c = ' ' then some ([], t) else (breakSp t).map fun p => (c :: p.1, p.2)

/-- Parsing of one ledger line (src/main.rs lines 76-81): key before the
first space, the rest must parse as a `u64`. -/
def parseLine (l : List Char) : Option (Key × Nat) :=
  match breakSp l with
  | none => none
  | some (k, vs) => (parseU64 vs).map fun v => (k, v)

/-- Rust `HashMap::insert`: replace the value of a present key, append otherwise. -/
def insertA (m : Apps) (k : Key) (v : Nat) : Apps :=
  match lookupA m k with
  | none => m ++ [(k, v)]
  | some _ => updateA m k v

/-- The parsing loop of `load_apps` (src/main.rs lines 74-82) on given file
contents. -/
def loadFromContents (c : List Char) : Apps :=
  (linesOf c).foldl (fun m l =>
    match parseLine l with
    | some kv => insertA m kv.1 kv.2
    | none => m) []

/-- Function `load_apps` (src/main.rs lines 64-84) as a function of the file state:
a missing file is created empty and yields an empty map; otherwise the
contents are parsed line by line.  Returns the map and the resulting file
state. -/
def load_apps : Option (List Char) → Apps × Option (List Char)
  | none => ([], some [])
  | some c => (loadFromContents c, some c)

/-- Function `save_apps` (src/main.rs lines 88-95): one `"{k} {v}\n"` line per entry,
in iteration order. -/
def save_apps : Apps → List Char
  | [] => []
  | kv :: t => (kv.1 ++ ' ' :: natToChars kv.2 ++ ['\n']) ++ save_apps t

/-- Modelled from the spec's words for §4.3 `load` ("lines that fail to
parse are silently skipped … a map containing exactly the valid entries"):
drop the unparsable lines, then insert the parsed entries in order. -/
def loadSpec (c : List Char) : Apps :=
  ((linesOf c).filterMap parseLine).foldl (fun m kv => insertA m kv.1 kv.2) []

lemma foldl_match_filterMap : ∀ (ls : List (List Char)) (m : Apps),
    ls.foldl (fun m l =>
      match parseLine l with
      | some kv => insertA m kv.1 kv.2
      | none => m) m =
    (ls.filterMap parseLine).foldl (fun m kv => insertA m kv.1 kv.2) m := by
  intro ls
  induction ls with
  | nil => intro m; rfl
  | cons l ls ih =>
    intro m
    rcases hp : parseLine l with _ | kv
    · rw [List.foldl_cons, List.filterMap_cons_none hp, hp]
      exact ih m
    · rw [List.foldl_cons, List.filterMap_cons_some hp, hp, List.foldl_cons]
      exact ih _

/-- C7: loading the ledger file skips every line that fails to parse
(no space separator, or a value part that is not a valid `u64`) without
failing, returning exactly the map built from the valid entries; a missing
file is created empty and yields the empty map.  The last conjunct is the
spec's Scenario C: one malformed and one valid line. -/
theorem C7_load_skips_invalid :
    load_apps none = ([], some []) ∧
      (∀ c, loadFromContents c = loadSpec c) ∧
      loadFromContents (chars "garbage\napp:x 42\n") = [(chars "app:x", 42)] := by
  refine ⟨rfl, fun c => foldl_match_filterMap (linesOf c) [], ?_⟩
  decide

/-! ### Save / load round trip (C10) -/

lemma splitOnCAux_no_sep (sep : Char) : ∀ (ln : List Char) (acc rest : List Char),
    sep ∉ ln →
    splitOnCAux sep (ln ++ sep :: rest) acc =
      (acc.reverse ++ ln) :: splitOnCAux sep rest [] := by
  intro ln
  induction ln with
  | nil =>
    intro acc rest _
    simp [splitOnCAux]
  | cons c t ih =>
    intro acc rest h
    have hc : c ≠ sep := fun he => h (he ▸ List.mem_cons_self _ _)
    rw [List.cons_append, splitOnCAux, if_neg hc,
      ih (c :: acc) rest fun hm => h (List.mem_cons_of_mem _ hm)]
    simp

lemma splitOnC_save : ∀ m : Apps, (∀ kv ∈ m, '\n' ∉ kv.1) →
    splitOnC '\n' (save_apps m) =
      (m.map fun kv => kv.1 ++ ' ' :: natToChars kv.2) ++ [[]] := by
  intro m
  induction m with
  | nil => intro _; rfl
  | cons kv t ih =>
    intro h
    have hline : '\n' ∉ kv.1 ++ ' ' :: natToChars kv.2 := by
      intro hm
      rcases List.mem_append.1 hm with hm | hm
      · exact h kv (List.mem_cons_self _ _) hm
      · rcases List.mem_cons.1 hm with he | hm
        · exact absurd he.symm (by decide)
        · obtain ⟨d, hd, he⟩ := natToCharsCore_mem _ _ _ hm
          exact (digitChar_spec d hd).2.2.2.1 he.symm
    have hshape : save_apps (kv :: t) =
        (kv.1 ++ ' ' :: natToChars kv.2) ++ '\n' :: save_apps t := by
      rw [save_apps]
      simp [List.append_assoc]
    rw [splitOnC, hshape, splitOnCAux_no_sep '\n' _ [] _ hline]
    rw [List.map_cons, List.cons_append]
    rw [show splitOnCAux '\n' (save_apps t) [] = splitOnC '\n' (save_apps t) from rfl,
      ih fun q hq => h q (List.mem_cons_of_mem _ hq)]
    simp

lemma stripCr_eq (l : List Char) (h : l.getLast? ≠ some '\r') : stripCr l = l := by
  rw [stripCr]
  rcases hg : l.getLast? with _ | c
  · rfl
  · have hc : c ≠ '\r' := by
      intro he
      apply h
      rw [hg, he]
    show (if c = '\r' then l.dropLast else l) = l
    rw [if_neg hc]

lemma linesOf_save (m : Apps) (hk : ∀ kv ∈ m, '\n' ∉ kv.1) :
    linesOf (save_apps m) = m.map fun kv => kv.1 ++ ' ' :: natToChars kv.2 := by
  rw [linesOf, splitOnC_save m hk, List.dropLast_concat, List.getLast?_concat]
  have hstrip : ∀ kv ∈ m, stripCr (kv.1 ++ ' ' :: natToChars kv.2) =
      kv.1 ++ ' ' :: natToChars kv.2 := by
    intro kv _
    apply stripCr_eq
    rcases hl : natToChars kv.2 with _ | ⟨c, t⟩
    · exact absurd hl (natToChars_ne_nil kv.2)
    · rw [List.getLast?_append, List.getLast?_cons_cons,
        List.getLast?_eq_getLast (c :: t) (List.cons_ne_nil c t), Option.or_some]
      have hmem : (c :: t).getLast (List.cons_ne_nil c t) ∈ natToChars kv.2 := by
        rw [hl]
        exact List.getLast_mem _
      obtain ⟨d, hd, he⟩ := natToCharsCore_mem _ _ _ hmem
      intro hcon
      have : (c :: t).getLast (List.cons_ne_nil c t) = '\r' := by
        injection hcon
      exact (digitChar_spec d hd).2.2.1 (he ▸ this)


  calc (List.map (fun kv => kv.1 ++ ' ' :: natToChars kv.2) m).map stripCr ++ []
      = (List.map (fun kv => kv.1 ++ ' ' :: natToChars kv.2) m).map stripCr := by simp
    _ = List.map (fun kv => kv.1 ++ ' ' :: natToChars kv.2) m := by
        rw [List.map_map]
        apply List.map_congr_left
        intro kv hkv
        exact hstrip kv hkv

lemma breakSp_append : ∀ (k ds : List Char), ' ' ∉ k →
    breakSp (k ++ ' ' :: ds) = some (k, ds) := by
  intro k
  induction k with
  | nil => intro ds _; simp [breakSp]
  | cons c t ih =>
    intro ds h
    have hc : c ≠ ' ' := fun he => h (he ▸ List.mem_cons_self _ _)
    rw [List.cons_append, breakSp, if_neg hc,
      ih ds fun hm => h (List.mem_cons_of_mem _ hm)]
    rfl

lemma parseLine_saved (k : Key) (v : Nat) (hk : ' ' ∉ k) (hv : v < U64) :
    parseLine (k ++ ' ' :: natToChars v) = some (k, v) := by
  rw [parseLine, breakSp_append k (natToChars v) hk]
  show Option.map (fun w => (k, w)) (parseU64 (natToChars v)) = some (k, v)
  rw [parseU64_natToChars v hv]
  rfl

lemma lookupA_append_none (a b : Apps) (k : Key)
    (ha : lookupA a k = none) : lookupA (a ++ b) k = lookupA b k := by
  induction a with
  | nil => rfl
  | cons kv t ih =>
    rw [lookupA] at ha
    rcases kv with ⟨k', v'⟩
    by_cases hk : k = k'
    · rw [if_pos hk] at ha; exact absurd ha (by simp)
    · rw [if_neg hk] at ha
      rw [List.cons_append, lookupA, if_neg hk]
      exact ih ha

lemma foldl_insertA_fresh : ∀ (m : Apps) (acc : Apps),
    (∀ kv ∈ m, lookupA acc kv.1 = none) → (m.map Prod.fst).Nodup →
    m.foldl (fun a kv => insertA a kv.1 kv.2) acc = acc ++ m := by
  intro m
  induction m with
  | nil => intro acc _ _; simp
  | cons kv t ih =>
    intro acc hfresh hnd
    have hkv : lookupA acc kv.1 = none := hfresh kv (List.mem_cons_self _ _)
    have hins : insertA acc kv.1 kv.2 = acc ++ [kv] := by
      rw [insertA, hkv]
    rw [List.foldl_cons, hins]
    have hnotin : ∀ q ∈ t, q.1 ≠ kv.1 := by
      intro q hq he
      rw [List.map_cons, List.nodup_cons] at hnd
      exact hnd.1 (he ▸ List.mem_map_of_mem Prod.fst hq)
    have hfresh' : ∀ q ∈ t, lookupA (acc ++ [kv]) q.1 = none := by
      intro q hq
      rw [lookupA_append_none acc [kv] q.1 (hfresh q (List.mem_cons_of_mem _ hq))]
      rw [lookupA, if_neg (hnotin q hq)]
      rfl
    have hnd' : (t.map Prod.fst).Nodup := by
      rw [List.map_cons, List.nodup_cons] at hnd
      exact hnd.2
    rw [ih (acc ++ [kv]) hfresh' hnd']
    simp

lemma filterMap_parseLine_saved (m : Apps)
    (hk : ∀ kv ∈ m, ' ' ∉ kv.1) (hv : ∀ kv ∈ m, kv.2 < U64) :
    (m.map fun kv => kv.1 ++ ' ' :: natToChars kv.2).filterMap parseLine = m := by
  induction m with
  | nil => rfl
  | cons kv t ih =>
    rw [List.map_cons, List.filterMap_cons_some
      (parseLine_saved kv.1 kv.2 (hk kv (List.mem_cons_self _ _))
        (hv kv (List.mem_cons_self _ _)))]
    rw [ih (fun q hq => hk q (List.mem_cons_of_mem _ hq))
      (fun q hq => hv q (List.mem_cons_of_mem _ hq))]

/-- C10: save/load round trip — for every ledger map whose keys are
non-empty and contain neither a space nor a newline (and whose values are
`u64` values, with distinct keys as in a `HashMap`), loading the file
produced by saving the map yields exactly the same map. -/
theorem C10_save_load_roundtrip (m : Apps)
    (hk : ∀ kv ∈ m, kv.1 ≠ [] ∧ ' ' ∉ kv.1 ∧ '\n' ∉ kv.1)
    (hnd : (m.map Prod.fst).Nodup)
    (hv : ∀ kv ∈ m, kv.2 < U64) :
    loadFromContents (save_apps m) = m := by
  rw [loadFromContents, foldl_match_filterMap,
    linesOf_save m fun kv hkv => (hk kv hkv).2.2,
    filterMap_parseLine_saved m (fun kv hkv => (hk kv hkv).2.1) hv,
    foldl_insertA_fresh m [] (fun kv _ => rfl) hnd]
  rfl

/-- Witness for C10 on a one-entry ledger with a realistic session key. -/
theorem C10_witness :
    loadFromContents (save_apps [(chars "app:x:1:5:2024-01-01", 42)]) =
      [(chars "app:x:1:5:2024-01-01", 42)] :=
  C10_save_load_roundtrip [(chars "app:x:1:5:2024-01-01", 42)]
    (by decide) (by decide) (by decide)

/-! ### Matching, key parsing and the per-sample tick (add_to_apps) -/

/-- Function `matches_rx` (src/main.rs lines 171-176): a missing pattern never
matches.  A compiled regex is modelled as an opaque predicate. -/
def matches_rx (s : List Char) (regex_opt : Option (List Char → Bool)) : Bool :=
  match regex_opt with
  | some re => re s
  | none => false

/-- Rust `str::split_whitespace`: split on whitespace, dropping empty pieces. -/
def splitWsAux : List Char → List Char → List (List Char)
  | [], acc => if acc.isEmpty then [] else [acc.reverse]
  | c :: t, acc =>
    if c.isWhitespace then
      if acc.isEmpty then splitWsAux t [] else acc.reverse :: splitWsAux t []
    else splitWsAux t (c :: acc)

/-- The call `ps_out.split_whitespace()`. -/
def splitWs (l : List Char) : List (List Char) := splitWsAux l []

/-- Rust `Vec::join(" ")` for the remaining command-line tokens. -/
def joinSp : List (List Char) → List Char
  | [] => []
  | [x] => x
  | x :: y :: t => x ++ ' ' :: joinSp (y :: t)

/-- Rust `str::starts_with` on character lists (pattern first). -/
def startsWithA : List Char → List Char → Bool
  | [], _ => true
  | _ :: _, [] => false
  | p :: ps, c :: cs => p == c && startsWithA ps cs

/-- Function `parse_key` (src/main.rs lines 97-118): split the key on `':'` and
expect `app : <app> : <pid> : <start_epoch> : <date>`; extra pieces after
the fifth are ignored, exactly like the five `parts.next()` calls. -/
def parse_key (key : Key) : Option (List Char × Nat × List Char) :=
  match splitOnC ':' key with
  | t :: app :: _pid :: start_str :: date :: _ =>
    if t = chars "app" then (parseU64 start_str).map fun s => (app, s, date) else none
  | _ => none

example : parse_key (chars "app:x:7:900:2024-01-01") =
    some (chars "x", 900, chars "2024-01-01") := by decide
example : parse_key (chars "app:x:7:-900:2024-01-01") = none := by decide
example : parse_key (chars "foo:x:7:900:2024-01-01") = none := by decide

/-- Function `sum_seconds_for_today` (src/main.rs lines 146-169), with "today"
passed in: collect the `[start, start.saturating_add(etime))` intervals of
today's `app:`-prefixed entries, merge them, and sum the merged lengths. -/
def sum_seconds_for_today (apps : Apps) (today : Date) : Nat :=
  totalOf (merge_intervals (apps.filterMap fun kv =>
    if startsWithA (chars "app:") kv.1 then
      match parse_key kv.1 with
      | some (_, start_epoch, date) =>
        if date = today then some (start_epoch, satAdd64 start_epoch kv.2) else none
      | none => none
    else none))

/-- Function `add_to_apps` (src/main.rs lines 178-272) as a function of its explicit
inputs and collaborator results.  `psR` is the result of the `ps`
invocation; `notifyR` the result of `notify-send` should the warning fire.
`Except.error` is an `Err` return (which `main` propagates with `?`);
the error payload is irrelevant and elided.  The returned tuple is
`(matched, apps, ledger file contents, warned)`. -/
def add_to_apps (apps : Apps) (file : Option (List Char)) (pid : Nat)
    (cmd_rx title_rx : Option (List Char → Bool)) (title : List Char)
    (limit warn_before : Nat) (warned : Date)
    (psR : Except Unit (List Char)) (notifyR : Except Unit Unit)
    (now : Int) (today : Date) :
    Except Unit (Bool × Apps × Option (List Char) × Date) :=
  match psR with
  | .error e => .error e
  | .ok ps_out =>
    match splitWs ps_out with
    | [] => .error ()
    | [_] => .error ()
    | secs_str :: comm :: rest =>
      match parseU64 secs_str with
      | none => .error ()
      | some seconds =>
        let command := joinSp rest
        if !matches_rx command cmd_rx && !matches_rx title title_rx then
          .ok (false, apps, file, warned)
        else
          let key := chars "app:" ++ comm ++ ':' :: natToChars pid ++
            ':' :: intToChars (saturating_sub_unsigned now seconds) ++ ':' :: today
          let apps' := (get_or_create apps key seconds).2
          let total := sum_seconds_for_today apps' today
          let file' := some (save_apps apps')
          match enforce limit warn_before total today warned notifyR with
          | .error e => .error e
          | .ok er => .ok (true, apps', file', er.2.2)

/-- The `for win in windows` loop of `main` (src/main.rs lines 305-318):
each window comes with the results its tick would get from `ps` and
`notify-send`; `add_to_apps(...)?` propagates the first error, aborting the
whole loop (and with it `main`). -/
def processWindows (cmd_rx title_rx : Option (List Char → Bool))
    (limit warn_before : Nat) (now : Int) (today : Date) :
    List ((Nat × List Char) × Except Unit (List Char) × Except Unit Unit) →
    Apps × Option (List Char) × Date →
    Except Unit (Apps × Option (List Char) × Date)
  | [], st => .ok st
  | (w, psR, notifyR) :: rest, st =>
    match add_to_apps st.1 st.2.1 w.1 cmd_rx title_rx w.2 limit warn_before st.2.2
        psR notifyR now today with
    | .error e => .error e
    | .ok r => processWindows cmd_rx title_rx limit warn_before now today rest
        (r.2.1, r.2.2.1, r.2.2.2)

/-- One iteration of the sampling loop of `main` (src/main.rs lines
302-325): a window-lister failure is logged (`eprintln`) and the tick
continues with the state unchanged; otherwise every window is processed
with `add_to_apps(...)?`, whose `Err` becomes an `Err` return from `main`,
terminating the monitoring process — modelled as `Except.error`. -/
def loop_tick (cmd_rx title_rx : Option (List Char → Bool))
    (limit warn_before : Nat) (now : Int) (today : Date)
    (listR : Except Unit (List ((Nat × List Char) × Except Unit (List Char) ×
      Except Unit Unit)))
    (st : Apps × Option (List Char) × Date) :
    Except Unit (Apps × Option (List Char) × Date) :=
  match listR with
  | .error _ => .ok st
  | .ok ws => processWindows cmd_rx title_rx limit warn_before now today ws st

/-- C2, claim as stated, is false: a per-pid `ps` lookup failure inside
`add_to_apps` is not skipped — `add_to_apps` returns `Err`, and the `?` at
src/main.rs line 317 propagates it out of `main`, terminating the
monitoring process.  Here a single window whose `ps` lookup fails makes the
whole tick return an error instead of continuing. -/
theorem C2_counterexample :
    loop_tick none none 100 10 50 (chars "d")
      (Except.ok [((1, chars "t"), Except.error (), Except.ok ())])
      ([], some [], []) = Except.error () := rfl

/-- C2 (amended): a window-lister failure is logged and that tick is
skipped with the loop continuing (first conjunct), but a per-pid `ps`
lookup failure (second conjunct) or a notification-send failure in the
warning branch (third conjunct, at a concrete matched sample inside the
warning window) makes `add_to_apps` return an error which `main`
propagates with `?`, terminating the monitoring process. -/
theorem C2_transient_errors :
    (∀ (cmd_rx title_rx : Option (List Char → Bool)) (limit wb : Nat) (now : Int)
      (today : Date) (st : Apps × Option (List Char) × Date),
      loop_tick cmd_rx title_rx limit wb now today (Except.error ()) st = Except.ok st) ∧
    (∀ (cmd_rx title_rx : Option (List Char → Bool)) (limit wb : Nat) (now : Int)
      (today : Date) (st : Apps × Option (List Char) × Date)
      (w : Nat × List Char) (notifyR : Except Unit Unit)
      (rest : List ((Nat × List Char) × Except Unit (List Char) × Except Unit Unit)),
      loop_tick cmd_rx title_rx limit wb now today
        (Except.ok ((w, Except.error (), notifyR) :: rest)) st = Except.error ()) ∧
    add_to_apps [] (some []) 7 (some fun _ => true) none (chars "t") 150 100 []
      (Except.ok (chars "100 x")) (Except.error ()) 1000 (chars "d") =
      Except.error () := by
  refine ⟨fun _ _ _ _ _ _ _ => rfl, fun _ _ _ _ _ _ _ _ _ _ => rfl, ?_⟩
  rfl

/-- C8: for every sampled window whose full command line matches neither
the optional command pattern nor whose title matches the optional title
pattern, the tick performs no ledger mutation and no persistence write —
the map, the file and the warned state are returned unchanged and
`add_to_apps` returns `false`; and a missing pattern never matches. -/
theorem C8_no_match_no_mutation (apps : Apps) (file : Option (List Char)) (pid : Nat)
    (cmd_rx title_rx : Option (List Char → Bool)) (title ps_out : List Char)
    (notifyR : Except Unit Unit) (now : Int) (today : Date)
    (limit warn_before : Nat) (warned : Date)
    (secs_str comm : List Char) (rest : List (List Char)) (n : Nat)
    (hsplit : splitWs ps_out = secs_str :: comm :: rest)
    (hparse : parseU64 secs_str = some n)
    (hc : matches_rx (joinSp rest) cmd_rx = false)
    (ht : matches_rx title title_rx = false) :
    add_to_apps apps file pid cmd_rx title_rx title limit warn_before warned
      (Except.ok ps_out) notifyR now today = Except.ok (false, apps, file, warned) ∧
    ∀ s : List Char, matches_rx s none = false := by
  constructor
  · show (match splitWs ps_out with
      | [] => Except.error ()
      | [_] => Except.error ()
      | secs_str :: comm :: rest =>
        match parseU64 secs_str with
        | none => .error ()
        | some seconds =>
          let command := joinSp rest
          if !matches_rx command cmd_rx && !matches_rx title title_rx then
            .ok (false, apps, file, warned)
          else
            let key := chars "app:" ++ comm ++ ':' :: natToChars pid ++
              ':' :: intToChars (saturating_sub_unsigned now seconds) ++ ':' :: today
            let apps' := (get_or_create apps key seconds).2
            let total := sum_seconds_for_today apps' today
            let file' := some (save_apps apps')
            match enforce limit warn_before total today warned notifyR with
            | .error e => .error e
            | .ok er => .ok (true, apps', file', er.2.2)) =
      Except.ok (false, apps, file, warned)
    rw [hsplit]
    rcases rest with _ | ⟨r0, rest⟩
    · show (match parseU64 secs_str with
        | none => Except.error ()
        | some seconds =>
          if !matches_rx (joinSp ([] : List (List Char))) cmd_rx &&
              !matches_rx title title_rx then
            Except.ok (false, apps, file, warned)
          else _) = Except.ok (false, apps, file, warned)
      rw [hparse]
      simp only [hc, ht]
      rfl
    · show (match parseU64 secs_str with
        | none => Except.error ()
        | some seconds =>
          if !matches_rx (joinSp (r0 :: rest)) cmd_rx &&
              !matches_rx title title_rx then
            Except.ok (false, apps, file, warned)
          else _) = Except.ok (false, apps, file, warned)
      rw [hparse]
      simp only [hc, ht]
      rfl
  · intro s; rfl

/-- Witness for C8: no pattern configured, sample `"5 foo"`, title `"t"` —
the tick returns `false` and leaves map, file and warned state unchanged. -/
theorem C8_witness :
    add_to_apps [] (some []) 1 none none (chars "t") 100 10 (chars "")
      (Except.ok (chars "5 foo")) (Except.ok ()) 50 (chars "d") =
      Except.ok (false, [], some [], chars "") ∧
    ∀ s : List Char, matches_rx s none = false :=
  C8_no_match_no_mutation [] (some []) 1 none none (chars "t") (chars "5 foo")
    (Except.ok ()) 50 (chars "d") 100 10 (chars "")
    (chars "5") (chars "foo") [] 5 (by decide) (by decide) rfl rfl

end Watchdog
